import Mathlib

/-
  Verification of the bufpool allocator (bufpool.go, options.go).

  The Go program manages a sync.Pool of fixed-size byte shards; Make(n)
  bump-allocates an n-byte sub-slice from a shard (retrying up to
  maxRetries shards) or falls back to a standalone make([]byte, n);
  Done returns a buffer by atomically decrementing the owning shard's
  reference count.

  The shallow embedding below models the sequential semantics:
  - a Shard is its byte storage plus the bump offset `off` and the
    reference count `refs` (int64 in Go, Int here);
  - the sync.Pool is modelled as the list `avail` of shard identifiers,
    where Get pops the front (creating a fresh shard when empty, via the
    pool's New function) and Put pushes the front; the identifiers index
    into `shards`, the list of every shard ever created;
  - the deferred p.pool.Put(st) calls of Make are collected during the
    retry loop and executed in LIFO order when Make returns, which makes
    the final avail equal to the Get-order list of inspected shards
    (fresh shard last) prepended to the remaining avail;
  - Go int arguments are Int; panics are Except.error.
-/

namespace Bufpool

/-- One shard: a byte region `data`, its live-reference count `refs`
(int64 in Go) and the bump offset `off`. -/
structure Shard where
  data : List Nat
  refs : Int
  off  : Nat
deriving Repr, DecidableEq, Inhabited

/-- A Buffer handle: the view is the byte range
starting at `start` of length `lenB` and capacity `capB` of the shard
named by `refs` (Go stores a pointer to the shard's refs field; `none`
models a nil pointer, i.e. a standalone buffer or a released one). -/
structure Buffer where
  start : Nat
  lenB  : Nat
  capB  : Nat
  refs  : Option Nat
deriving Repr, DecidableEq, Inhabited

/-- Pool configuration: shard size `sz` and `maxRetries`, both Go ints. -/
structure Pool where
  sz : Int
  maxRetries : Int
deriving Repr, DecidableEq

/-- Options record (options.go `cfg`). -/
structure Cfg where
  maxRetries : Int
deriving Repr, DecidableEq

/-- options.go: `defaultCfg = cfg{maxRetries: 1}`. -/
def defaultCfg : Cfg := ⟨1⟩

/-- options.go: WithMaxRetries sets the maximum number of retries. -/
def WithMaxRetries (max : Int) : Cfg → Cfg :=
  fun c => { c with maxRetries := max }

/-- bufpool.go New: builds a Pool from the shard size and the options. -/
def New (sz : Int) (opts : List (Cfg → Cfg)) : Pool :=
  ⟨sz, (opts.foldl (fun c o => o c) defaultCfg).maxRetries⟩

/-- Mutable state of a Pool: every shard ever created (indexed by
identifier) and the identifiers currently inside the sync.Pool. -/
structure PoolState where
  shards : List Shard
  avail  : List Nat
deriving Repr, DecidableEq

/-- The state of a fresh Pool: no shard created, sync.Pool empty. -/
def PoolState.init : PoolState := ⟨[], []⟩

/-- The sync.Pool New function: `&shard{b: make([]byte, sz)}` — zeroed
storage, refs 0, off 0. -/
def newShard (sz : Int) : Shard := ⟨List.replicate sz.toNat 0, 0, 0⟩

/-- Shard lookup by identifier (dereferencing a *shard). -/
def getShard (st : PoolState) (i : Nat) : Shard := st.shards.getD i default

/-- Shard in-place update by identifier. -/
def setShard (st : PoolState) (i : Nat) (sh : Shard) : PoolState :=
  { st with shards := st.shards.set i sh }

/-- sync.Pool Get: pop an available shard, or create a fresh one via the
New function when the pool is empty. -/
def poolGet (sz : Int) (st : PoolState) : Nat × PoolState :=
  match st.avail with
  | [] => (st.shards.length, ⟨st.shards ++ [newShard sz], []⟩)
  | id :: rest => (id, ⟨st.shards, rest⟩)

/-- The switch in Make's retry loop: the shard is selected if
`st.off+n < len(st.b)`, otherwise if `st.refs == 0` it is selected with
its offset reset to 0; otherwise it is passed over unchanged. -/
def claimCheck (sh : Shard) (n : Nat) : Option Shard :=
  if sh.off + n < sh.data.length then some sh
  else if sh.refs = 0 then some { sh with off := 0 }
  else none

/-- Make's retry loop `for i := 0; i < p.maxRetries && s == nil; i++`:
Get a shard, run the claim switch, stop on selection. `defs` accumulates
the shard identifiers whose Put was deferred, in Get order. -/
def makeLoop (sz : Int) (n : Nat) :
    Nat → PoolState → List Nat → Option Nat × PoolState × List Nat
  | 0, st, defs => (none, st, defs)
  | fuel+1, st, defs =>
    match claimCheck (getShard (poolGet sz st).2 (poolGet sz st).1) n with
    | some sh =>
        (some (poolGet sz st).1,
         setShard (poolGet sz st).2 (poolGet sz st).1 sh,
         defs ++ [(poolGet sz st).1])
    | none => makeLoop sz n fuel (poolGet sz st).2 (defs ++ [(poolGet sz st).1])

/-- bufpool.go mallocBuffer: `Buffer{B: make([]byte, n)}` — length and
capacity n, nil refs pointer. -/
def mallocBuffer (n : Nat) : Buffer := ⟨0, n, n, none⟩

/-- The claim at the end of Make: increment refs, carve
`s.b[s.off : s.off+n : s.off+n]`, bump off. Returns the Buffer and the
updated state (avail untouched; the deferred Puts are applied by Make). -/
def claimFrom (st : PoolState) (id : Nat) (n : Nat) : Buffer × PoolState :=
  (⟨(getShard st id).off, n, n, some id⟩,
   setShard st id
     { getShard st id with
         refs := (getShard st id).refs + 1,
         off := (getShard st id).off + n })

/-- bufpool.go Make: reject n < 0 (panic), route n == 0 and n >= sz to
mallocBuffer, otherwise run the retry loop, fall back to a direct
p.pool.New() when no pooled shard was selected, then claim. The final
avail reflects the deferred Puts running in LIFO order at return. -/
def Make (p : Pool) (st : PoolState) (n : Int) :
    Except String (Buffer × PoolState) :=
  if n < 0 then .error "size should be greater than zero"
  else if n = 0 ∨ p.sz ≤ n then .ok (mallocBuffer n.toNat, st)
  else
    match makeLoop p.sz n.toNat p.maxRetries.toNat st [] with
    | (some id, st1, ds) =>
        .ok ((claimFrom st1 id n.toNat).1,
             { (claimFrom st1 id n.toNat).2 with avail := ds ++ st1.avail })
    | (none, st1, ds) =>
        .ok ((claimFrom ⟨st1.shards ++ [newShard p.sz], st1.avail⟩
                st1.shards.length n.toNat).1,
             { (claimFrom ⟨st1.shards ++ [newShard p.sz], st1.avail⟩
                  st1.shards.length n.toNat).2 with
                 avail := ds ++ [st1.shards.length] ++ st1.avail })

/-- Number of p.pool.Get() calls a Make call performs: each Get defers
exactly one Put, so it is the length of the deferred-Put list. -/
def makeGetCount (p : Pool) (st : PoolState) (n : Int) : Nat :=
  if n < 0 then 0
  else if n = 0 ∨ p.sz ≤ n then 0
  else (makeLoop p.sz n.toNat p.maxRetries.toNat st []).2.2.length

/-- bufpool.go Done: if the refs pointer is non-nil, decrement the
referenced shard's refs and clear the pointer. Returns the updated
buffer value (the receiver is *Buffer) and pool state. -/
def Done (b : Buffer) (st : PoolState) : Buffer × PoolState :=
  match b.refs with
  | none => (b, st)
  | some i =>
      ({ b with refs := none },
       setShard st i { getShard st i with refs := (getShard st i).refs - 1 })

/-- bufpool.go Len: `len(b.B)`. -/
def Buffer.Len (b : Buffer) : Nat := b.lenB

/-- A client operation against one Pool: `make n` calls Pool.Make and
keeps the returned Buffer, `done i` calls Done on the i-th Buffer
obtained so far. -/
inductive Op where
  | make : Int → Op
  | done : Nat → Op
deriving Repr, DecidableEq

/-- Whole-system state: the pool state plus every Buffer handed out so
far (in Make order), as last updated by Done. -/
structure SysState where
  pool : PoolState
  bufs : List Buffer
deriving Repr, DecidableEq

/-- Initial system state. -/
def SysState.init : SysState := ⟨PoolState.init, []⟩

/-- One operation of a client trace. -/
def step (p : Pool) (s : SysState) (op : Op) : SysState :=
  match op with
  | .make n =>
      match Make p s.pool n with
      | .error _ => s
      | .ok r => ⟨r.2, s.bufs ++ [r.1]⟩
  | .done i =>
      match s.bufs[i]? with
      | none => s
      | some b => ⟨(Done b s.pool).2, s.bufs.set i (Done b s.pool).1⟩

/-- Run a trace of operations from the initial state. -/
def run (p : Pool) (ops : List Op) : SysState :=
  ops.foldl (step p) SysState.init

/-- Two buffer views occupy disjoint byte ranges. -/
def noOverlap (a b : Buffer) : Prop :=
  a.start + a.lenB ≤ b.start ∨ b.start + b.lenB ≤ a.start

/-- Number of live (unreleased) buffers backed by shard i. -/
def countLive (bufs : List Buffer) (i : Nat) : Nat :=
  bufs.countP (fun b => b.refs == some i)

/-- The separation relation: buffers live on the same shard do not
overlap. -/
def bufRel (a b : Buffer) : Prop :=
  ∀ i, a.refs = some i → b.refs = some i → noOverlap a b

/-- The allocator invariant relating a pool state and the buffers handed
out: available identifiers are valid, back-references are valid, each
shard's refs equals its number of live buffers, every live buffer lies
below its shard's bump offset, and live buffers of one shard are
pairwise disjoint. -/
def Inv (st : PoolState) (bufs : List Buffer) : Prop :=
  (∀ id ∈ st.avail, id < st.shards.length) ∧
  (∀ b ∈ bufs, ∀ i, b.refs = some i → i < st.shards.length) ∧
  (∀ i, (getShard st i).refs = (countLive bufs i : Int)) ∧
  (∀ b ∈ bufs, ∀ i, b.refs = some i → b.start + b.lenB ≤ (getShard st i).off) ∧
  List.Pairwise bufRel bufs

/-- The §8.7 trace: ten Make(20) each immediately followed by Done. -/
def opsTenTwenty : List Op :=
  [.make 20, .done 0, .make 20, .done 1, .make 20, .done 2,
   .make 20, .done 3, .make 20, .done 4, .make 20, .done 5,
   .make 20, .done 6, .make 20, .done 7, .make 20, .done 8,
   .make 20, .done 9]

/-! ### List-level helper lemmas -/

theorem getShard_set_self (st : PoolState) (i : Nat) (sh : Shard)
    (h : i < st.shards.length) : getShard (setShard st i sh) i = sh := by
  simp [getShard, setShard, List.getD_eq_getElem?_getD, List.getElem?_set_self h]

theorem getShard_set_ne (st : PoolState) (i j : Nat) (sh : Shard)
    (h : i ≠ j) : getShard (setShard st i sh) j = getShard st j := by
  simp [getShard, setShard, List.getD_eq_getElem?_getD, List.getElem?_set_ne h]

theorem setShard_of_le (st : PoolState) (i : Nat) (sh : Shard)
    (h : st.shards.length ≤ i) : setShard st i sh = st := by
  simp [setShard, List.set_eq_of_length_le h]

theorem getD_append_left (l l2 : List Shard) (j : Nat) (h : j < l.length) :
    (l ++ l2).getD j default = l.getD j default := by
  simp [List.getD_eq_getElem?_getD, List.getElem?_append_left h]

theorem getD_concat_self (l : List Shard) (sh : Shard) :
    (l ++ [sh]).getD l.length default = sh := by
  simp [List.getD_eq_getElem?_getD, List.getElem?_concat_length]

theorem getD_of_le (l : List Shard) (j : Nat) (h : l.length ≤ j) :
    l.getD j default = default := by
  simp [List.getD_eq_getElem?_getD, List.getElem?_eq_none h]

theorem countP_set_add (l : List Buffer) (p : Buffer → Bool) :
    ∀ (i : Nat) (b b2 : Buffer), l[i]? = some b →
      (l.set i b2).countP p + (if p b then 1 else 0)
        = l.countP p + (if p b2 then 1 else 0) := by
  induction l with
  | nil => intro i b b2 h; simp at h
  | cons x xs ih =>
    intro i b b2 h
    cases i with
    | zero =>
      simp only [List.getElem?_cons_zero, Option.some.injEq] at h
      subst h
      simp [List.countP_cons]
      omega
    | succ j =>
      simp only [List.getElem?_cons_succ] at h
      simp only [List.set_cons_succ, List.countP_cons]
      have := ih j b b2 h
      omega

theorem pairwise_set_of_trivial (l : List Buffer) (b2 : Buffer)
    (h2 : ∀ a, bufRel a b2) (h3 : ∀ a, bufRel b2 a) :
    ∀ i, l.Pairwise bufRel → (l.set i b2).Pairwise bufRel := by
  induction l with
  | nil => intro i h; simp
  | cons x xs ih =>
    intro i h
    rw [List.pairwise_cons] at h
    cases i with
    | zero =>
      rw [List.set_cons_zero, List.pairwise_cons]
      exact ⟨fun a _ => h3 a, h.2⟩
    | succ j =>
      rw [List.set_cons_succ, List.pairwise_cons]
      refine ⟨fun a ha => ?_, ih j h.2⟩
      rcases List.mem_or_eq_of_mem_set ha with hmem | rfl
      · exact h.1 a hmem
      · exact h2 x

theorem list_set_same (l : List Buffer) :
    ∀ (i : Nat) (b : Buffer), l[i]? = some b → l.set i b = l := by
  induction l with
  | nil => intro i b h; simp at h
  | cons x xs ih =>
    intro i b h
    cases i with
    | zero =>
      simp only [List.getElem?_cons_zero, Option.some.injEq] at h
      subst h; simp
    | succ j =>
      simp only [List.getElem?_cons_succ] at h
      simp [ih j b h]

theorem setShard_length (st : PoolState) (i : Nat) (sh : Shard) :
    (setShard st i sh).shards.length = st.shards.length := by
  simp [setShard]

theorem setShard_avail (st : PoolState) (i : Nat) (sh : Shard) :
    (setShard st i sh).avail = st.avail := rfl

theorem getShard_mk (l : List Shard) (a : List Nat) (i : Nat) :
    getShard ⟨l, a⟩ i = l.getD i default := rfl

theorem getShard_congr (st st2 : PoolState) (i : Nat)
    (h : st2.shards = st.shards) : getShard st2 i = getShard st i := by
  unfold getShard
  rw [h]

/-- One step of the retry loop when the inspected shard is selected. -/
theorem makeLoop_succ_some (sz : Int) (n : Nat) (f : Nat) (st : PoolState)
    (ds : List Nat) (sh : Shard)
    (h : claimCheck (getShard (poolGet sz st).2 (poolGet sz st).1) n = some sh) :
    makeLoop sz n (f + 1) st ds =
      (some (poolGet sz st).1,
       setShard (poolGet sz st).2 (poolGet sz st).1 sh,
       ds ++ [(poolGet sz st).1]) := by
  rw [makeLoop, h]

/-- One step of the retry loop when the inspected shard is passed over. -/
theorem makeLoop_succ_none (sz : Int) (n : Nat) (f : Nat) (st : PoolState)
    (ds : List Nat)
    (h : claimCheck (getShard (poolGet sz st).2 (poolGet sz st).1) n = none) :
    makeLoop sz n (f + 1) st ds =
      makeLoop sz n f (poolGet sz st).2 (ds ++ [(poolGet sz st).1]) := by
  rw [makeLoop, h]

theorem claimFrom_fst (st : PoolState) (id n : Nat) :
    (claimFrom st id n).1 = ⟨(getShard st id).off, n, n, some id⟩ := rfl

theorem claimFrom_snd (st : PoolState) (id n : Nat) :
    (claimFrom st id n).2 =
      setShard st id
        { getShard st id with
            refs := (getShard st id).refs + 1,
            off := (getShard st id).off + n } := rfl

/-! ### Invariant lemmas -/

theorem countLive_append (bufs : List Buffer) (b : Buffer) (i : Nat) :
    countLive (bufs ++ [b]) i
      = countLive bufs i + (if b.refs = some i then 1 else 0) := by
  unfold countLive
  rw [List.countP_append]
  congr 1
  by_cases h : b.refs = some i <;> simp [List.countP_cons, h]

theorem no_live_of_countLive_zero (bufs : List Buffer) (i : Nat)
    (h : countLive bufs i = 0) : ∀ b ∈ bufs, b.refs ≠ some i := by
  unfold countLive at h
  rw [List.countP_eq_zero] at h
  intro b hb hbe
  have := h b hb
  simp [hbe] at this

theorem countLive_eq_zero_of_invalid (bufs : List Buffer) (len i : Nat)
    (h2 : ∀ b ∈ bufs, ∀ j, b.refs = some j → j < len)
    (hi : len ≤ i) : countLive bufs i = 0 := by
  unfold countLive
  rw [List.countP_eq_zero]
  intro b hb
  simp only [beq_iff_eq]
  intro hbe
  have := h2 b hb i hbe
  omega

theorem inv_avail_mono (st st2 : PoolState) (bufs : List Buffer)
    (h : Inv st bufs) (hsh : st2.shards = st.shards)
    (hav : ∀ d ∈ st2.avail, d ∈ st.avail ∨ d < st.shards.length) :
    Inv st2 bufs := by
  obtain ⟨h1, h2, h3, h4, h5⟩ := h
  refine ⟨?_, ?_, ?_, ?_, h5⟩
  · intro id hid
    rw [hsh]
    rcases hav id hid with hmem | hlt
    · exact h1 id hmem
    · exact hlt
  · intro b hb i hbi
    rw [hsh]
    exact h2 b hb i hbi
  · intro i
    rw [getShard_congr st st2 i hsh]
    exact h3 i
  · intro b hb i hbi
    rw [getShard_congr st st2 i hsh]
    exact h4 b hb i hbi

theorem inv_append_fresh (st : PoolState) (bufs : List Buffer) (sh : Shard)
    (hr : sh.refs = 0) (h : Inv st bufs) :
    Inv ⟨st.shards ++ [sh], st.avail⟩ bufs := by
  obtain ⟨h1, h2, h3, h4, h5⟩ := h
  refine ⟨?_, ?_, ?_, ?_, h5⟩
  · intro id hid
    have := h1 id hid
    simp only [List.length_append, List.length_cons, List.length_nil]
    omega
  · intro b hb i hbi
    have := h2 b hb i hbi
    simp only [List.length_append, List.length_cons, List.length_nil]
    omega
  · intro i
    rcases lt_trichotomy i st.shards.length with hlt | heq | hgt
    · rw [getShard_mk, getD_append_left st.shards [sh] i hlt]
      exact h3 i
    · subst heq
      rw [getShard_mk, getD_concat_self st.shards sh, hr,
        countLive_eq_zero_of_invalid bufs st.shards.length st.shards.length h2
          le_rfl]
      rfl
    · rw [getShard_mk, getD_of_le (st.shards ++ [sh]) i (by simp; omega),
        countLive_eq_zero_of_invalid bufs st.shards.length i h2 (by omega)]
      rfl
  · intro b hb i hbi
    have hi := h2 b hb i hbi
    rw [getShard_mk, getD_append_left st.shards [sh] i hi]
    exact h4 b hb i hbi

theorem inv_set_general (st : PoolState) (bufs : List Buffer) (id : Nat)
    (sh : Shard) (h : Inv st bufs) (hid : id < st.shards.length)
    (hrefs : sh.refs = (getShard st id).refs)
    (hbound : ∀ b ∈ bufs, b.refs = some id → b.start + b.lenB ≤ sh.off) :
    Inv (setShard st id sh) bufs := by
  obtain ⟨h1, h2, h3, h4, h5⟩ := h
  refine ⟨?_, ?_, ?_, ?_, h5⟩
  · intro d hd
    rw [setShard_length]
    exact h1 d hd
  · intro b hb i hbi
    rw [setShard_length]
    exact h2 b hb i hbi
  · intro i
    by_cases hij : id = i
    · subst hij
      rw [getShard_set_self _ _ _ hid, hrefs]
      exact h3 id
    · rw [getShard_set_ne _ _ _ _ hij]
      exact h3 i
  · intro b hb i hbi
    by_cases hij : id = i
    · subst hij
      rw [getShard_set_self _ _ _ hid]
      exact hbound b hb hbi
    · rw [getShard_set_ne _ _ _ _ hij]
      exact h4 b hb i hbi

theorem inv_set_claimCheck (st : PoolState) (bufs : List Buffer) (id : Nat)
    (n : Nat) (sh : Shard) (h : Inv st bufs) (hid : id < st.shards.length)
    (hcc : claimCheck (getShard st id) n = some sh) :
    Inv (setShard st id sh) bufs ∧
    (∀ b ∈ bufs, b.refs = some id → b.start + b.lenB ≤ sh.off) := by
  have h3 := h.2.2.1
  unfold claimCheck at hcc
  split_ifs at hcc with hc1 hc2
  · obtain rfl : getShard st id = sh := by injection hcc
    exact ⟨inv_set_general st bufs id _ h hid rfl
      (fun b hb hbi => h.2.2.2.1 b hb id hbi),
      fun b hb hbi => h.2.2.2.1 b hb id hbi⟩
  · obtain rfl : { getShard st id with off := 0 } = sh := by injection hcc
    have hzero : countLive bufs id = 0 := by
      have := h3 id
      rw [hc2] at this
      omega
    have hnone := no_live_of_countLive_zero bufs id hzero
    refine ⟨inv_set_general st bufs id _ h hid rfl ?_, ?_⟩
    · intro b hb hbi
      exact absurd hbi (hnone b hb)
    · intro b hb hbi
      exact absurd hbi (hnone b hb)

theorem poolGet_facts (sz : Int) (st : PoolState) (bufs : List Buffer)
    (h : Inv st bufs) :
    Inv (poolGet sz st).2 bufs ∧
    st.shards.length ≤ (poolGet sz st).2.shards.length ∧
    (poolGet sz st).1 < (poolGet sz st).2.shards.length := by
  rcases hav : st.avail with _ | ⟨id, rest⟩
  · simp only [poolGet, hav]
    refine ⟨?_, by simp, by simp⟩
    exact inv_avail_mono ⟨st.shards ++ [newShard sz], st.avail⟩ _ bufs
      (inv_append_fresh st bufs (newShard sz) rfl h) rfl (by simp)
  · simp only [poolGet, hav]
    refine ⟨?_, le_rfl, ?_⟩
    · exact inv_avail_mono st _ bufs h rfl
        (fun d hd => Or.inl (by rw [hav]; exact List.mem_cons_of_mem id hd))
    · exact h.1 id (by rw [hav]; exact List.mem_cons_self id rest)

theorem makeLoop_inv (sz : Int) (n : Nat) (bufs : List Buffer) :
    ∀ (fuel : Nat) (st : PoolState) (ds : List Nat),
      Inv st bufs → (∀ d ∈ ds, d < st.shards.length) →
      Inv (makeLoop sz n fuel st ds).2.1 bufs ∧
      st.shards.length ≤ (makeLoop sz n fuel st ds).2.1.shards.length ∧
      (∀ d ∈ (makeLoop sz n fuel st ds).2.2,
          d < (makeLoop sz n fuel st ds).2.1.shards.length) ∧
      (∀ id, (makeLoop sz n fuel st ds).1 = some id →
          id < (makeLoop sz n fuel st ds).2.1.shards.length ∧
          ∀ b ∈ bufs, b.refs = some id →
            b.start + b.lenB ≤ (getShard (makeLoop sz n fuel st ds).2.1 id).off) := by
  intro fuel
  induction fuel with
  | zero =>
    intro st ds hInv hds
    exact ⟨hInv, le_rfl, hds, fun id hid => by cases hid⟩
  | succ f ih =>
    intro st ds hInv hds
    obtain ⟨hInv2, hlen2, hid2⟩ := poolGet_facts sz st bufs hInv
    rcases hcc : claimCheck (getShard (poolGet sz st).2 (poolGet sz st).1) n
      with _ | sh
    · rw [makeLoop_succ_none sz n f st ds hcc]
      have hds2 : ∀ d ∈ ds ++ [(poolGet sz st).1],
          d < (poolGet sz st).2.shards.length := by
        intro d hd
        rcases List.mem_append.mp hd with hold | hnew
        · have := hds d hold
          omega
        · rw [List.mem_singleton.mp hnew]
          exact hid2
      obtain ⟨r1, r2, r3, r4⟩ := ih (poolGet sz st).2 (ds ++ [(poolGet sz st).1])
        hInv2 hds2
      exact ⟨r1, le_trans hlen2 r2, r3, r4⟩
    · rw [makeLoop_succ_some sz n f st ds sh hcc]
      obtain ⟨hInv3, hbound3⟩ :=
        inv_set_claimCheck (poolGet sz st).2 bufs (poolGet sz st).1 n sh hInv2
          hid2 hcc
      refine ⟨hInv3, ?_, ?_, ?_⟩
      · rw [setShard_length]
        exact hlen2
      · intro d hd
        rw [setShard_length]
        rcases List.mem_append.mp hd with hold | hnew
        · have := hds d hold
          omega
        · rw [List.mem_singleton.mp hnew]
          exact hid2
      · intro id hid
        obtain rfl : (poolGet sz st).1 = id := by injection hid
        refine ⟨by rw [setShard_length]; exact hid2, ?_⟩
        rw [getShard_set_self _ _ _ hid2]
        exact hbound3

theorem inv_claimFrom (st : PoolState) (bufs : List Buffer) (id : Nat) (n : Nat)
    (h : Inv st bufs) (hid : id < st.shards.length)
    (hb : ∀ b ∈ bufs, b.refs = some id →
        b.start + b.lenB ≤ (getShard st id).off) :
    Inv (claimFrom st id n).2 (bufs ++ [(claimFrom st id n).1]) := by
  obtain ⟨h1, h2, h3, h4, h5⟩ := h
  rw [claimFrom_fst, claimFrom_snd]
  refine ⟨?_, ?_, ?_, ?_, ?_⟩
  · intro d hd
    rw [setShard_avail] at hd
    rw [setShard_length]
    exact h1 d hd
  · intro b hb2 i hbi
    rw [setShard_length]
    rcases List.mem_append.mp hb2 with hold | hnew
    · exact h2 b hold i hbi
    · rw [List.mem_singleton.mp hnew] at hbi
      obtain rfl : id = i := by simpa using hbi
      exact hid
  · intro i
    rw [countLive_append]
    by_cases hij : id = i
    · subst hij
      rw [getShard_set_self _ _ _ hid, if_pos rfl]
      have hc := h3 id
      show (getShard st id).refs + 1 = ((countLive bufs id + 1 : Nat) : Int)
      push_cast
      omega
    · rw [getShard_set_ne _ _ _ _ hij,
        if_neg (fun hcon => hij (Option.some.inj hcon))]
      have hc := h3 i
      push_cast
      omega
  · intro b hb2 i hbi
    rcases List.mem_append.mp hb2 with hold | hnew
    · by_cases hij : id = i
      · subst hij
        rw [getShard_set_self _ _ _ hid]
        have := hb b hold hbi
        show b.start + b.lenB ≤ (getShard st id).off + n
        omega
      · rw [getShard_set_ne _ _ _ _ hij]
        exact h4 b hold i hbi
    · rw [List.mem_singleton.mp hnew] at hbi ⊢
      obtain rfl : id = i := by simpa using hbi
      rw [getShard_set_self _ _ _ hid]
  · rw [List.pairwise_append]
    refine ⟨h5, List.pairwise_singleton _ _, ?_⟩
    intro a ha b hbmem
    rw [List.mem_singleton.mp hbmem]
    intro i hai hbi
    obtain rfl : id = i := by simpa using hbi
    left
    exact hb a ha hai

theorem inv_append_malloc (st : PoolState) (bufs : List Buffer) (k : Nat)
    (h : Inv st bufs) : Inv st (bufs ++ [mallocBuffer k]) := by
  obtain ⟨h1, h2, h3, h4, h5⟩ := h
  refine ⟨h1, ?_, ?_, ?_, ?_⟩
  · intro b hb i hbi
    rcases List.mem_append.mp hb with hold | hnew
    · exact h2 b hold i hbi
    · rw [List.mem_singleton.mp hnew] at hbi
      cases hbi
  · intro i
    rw [countLive_append]
    simp only [mallocBuffer]
    simp
    exact h3 i
  · intro b hb i hbi
    rcases List.mem_append.mp hb with hold | hnew
    · exact h4 b hold i hbi
    · rw [List.mem_singleton.mp hnew] at hbi
      cases hbi
  · rw [List.pairwise_append]
    refine ⟨h5, List.pairwise_singleton _ _, ?_⟩
    intro a _ b hbmem
    rw [List.mem_singleton.mp hbmem]
    intro i _ hbi
    cases hbi

theorem make_shard_some (p : Pool) (st : PoolState) (n : Int) (id : Nat)
    (st1 : PoolState) (ds : List Nat) (hneg : ¬ n < 0)
    (hstand : ¬(n = 0 ∨ p.sz ≤ n))
    (hml : makeLoop p.sz n.toNat p.maxRetries.toNat st [] = (some id, st1, ds)) :
    Make p st n = .ok ((claimFrom st1 id n.toNat).1,
      { (claimFrom st1 id n.toNat).2 with avail := ds ++ st1.avail }) := by
  unfold Make
  rw [if_neg hneg, if_neg hstand, hml]

theorem make_shard_none (p : Pool) (st : PoolState) (n : Int)
    (st1 : PoolState) (ds : List Nat) (hneg : ¬ n < 0)
    (hstand : ¬(n = 0 ∨ p.sz ≤ n))
    (hml : makeLoop p.sz n.toNat p.maxRetries.toNat st [] = (none, st1, ds)) :
    Make p st n = .ok
      ((claimFrom ⟨st1.shards ++ [newShard p.sz], st1.avail⟩
          st1.shards.length n.toNat).1,
       { (claimFrom ⟨st1.shards ++ [newShard p.sz], st1.avail⟩
            st1.shards.length n.toNat).2 with
           avail := ds ++ [st1.shards.length] ++ st1.avail }) := by
  unfold Make
  rw [if_neg hneg, if_neg hstand, hml]

theorem inv_make (p : Pool) (st : PoolState) (bufs : List Buffer) (n : Int)
    (h : Inv st bufs) :
    ∀ b st2, Make p st n = .ok (b, st2) → Inv st2 (bufs ++ [b]) := by
  intro b st2 hM
  by_cases hneg : n < 0
  · unfold Make at hM
    rw [if_pos hneg] at hM
    simp at hM
  by_cases hstand : n = 0 ∨ p.sz ≤ n
  · unfold Make at hM
    rw [if_neg hneg, if_pos hstand] at hM
    rw [Except.ok.injEq, Prod.mk.injEq] at hM
    obtain ⟨rfl, rfl⟩ := hM
    exact inv_append_malloc st bufs n.toNat h
  · rcases hml : makeLoop p.sz n.toNat p.maxRetries.toNat st [] with ⟨sel, st1, ds⟩
    have hloop := makeLoop_inv p.sz n.toNat bufs p.maxRetries.toNat st [] h
      (by simp)
    rw [hml] at hloop
    dsimp only at hloop
    obtain ⟨hInv1, _hlen1, hds1, hsel⟩ := hloop
    cases sel with
    | some id =>
      rw [make_shard_some p st n id st1 ds hneg hstand hml] at hM
      rw [Except.ok.injEq, Prod.mk.injEq] at hM
      obtain ⟨rfl, rfl⟩ := hM
      obtain ⟨hidlt, hbound⟩ := hsel id rfl
      have hclaim := inv_claimFrom st1 bufs id n.toNat hInv1 hidlt hbound
      refine inv_avail_mono (claimFrom st1 id n.toNat).2 _ _ hclaim rfl ?_
      intro d hd
      have hd2 : d ∈ ds ++ st1.avail := hd
      rw [claimFrom_snd, setShard_avail, setShard_length]
      rcases List.mem_append.mp hd2 with hds | hav
      · right
        exact hds1 d hds
      · left
        exact hav
    | none =>
      rw [make_shard_none p st n st1 ds hneg hstand hml] at hM
      rw [Except.ok.injEq, Prod.mk.injEq] at hM
      obtain ⟨rfl, rfl⟩ := hM
      have hfresh : Inv ⟨st1.shards ++ [newShard p.sz], st1.avail⟩ bufs :=
        inv_append_fresh st1 bufs (newShard p.sz) rfl hInv1
      have hidlt : st1.shards.length <
          (⟨st1.shards ++ [newShard p.sz], st1.avail⟩ : PoolState).shards.length := by
        simp
      have hbound : ∀ b ∈ bufs, b.refs = some st1.shards.length →
          b.start + b.lenB ≤
            (getShard ⟨st1.shards ++ [newShard p.sz], st1.avail⟩
              st1.shards.length).off := by
        intro b hbm hbi
        have := hInv1.2.1 b hbm st1.shards.length hbi
        omega
      have hclaim := inv_claimFrom ⟨st1.shards ++ [newShard p.sz], st1.avail⟩
        bufs st1.shards.length n.toNat hfresh hidlt hbound
      refine inv_avail_mono _ _ _ hclaim rfl ?_
      intro d hd
      have hd2 : d ∈ ds ++ [st1.shards.length] ++ st1.avail := hd
      rw [claimFrom_snd, setShard_avail, setShard_length]
      rcases List.mem_append.mp hd2 with hds | hav
      · rcases List.mem_append.mp hds with hds2 | hnew
        · right
          have := hds1 d hds2
          simp only [List.length_append, List.length_cons, List.length_nil]
          omega
        · right
          rw [List.mem_singleton.mp hnew]
          simp only [List.length_append, List.length_cons, List.length_nil]
          omega
      · left
        exact hav

theorem inv_done (st : PoolState) (bufs : List Buffer) (i : Nat) (b : Buffer)
    (h : Inv st bufs) (hib : bufs[i]? = some b) :
    Inv (Done b st).2 (bufs.set i (Done b st).1) := by
  rcases hr : b.refs with _ | j
  · have hD : Done b st = (b, st) := by simp [Done, hr]
    rw [hD, list_set_same bufs i b hib]
    exact h
  · obtain ⟨h1, h2, h3, h4, h5⟩ := h
    have hbm : b ∈ bufs := List.getElem?_mem hib
    have hj : j < st.shards.length := h2 b hbm j hr
    have hD1 : (Done b st).1 = { b with refs := none } := by
      simp [Done, hr]
    have hD2 : (Done b st).2 =
        setShard st j { getShard st j with refs := (getShard st j).refs - 1 } := by
      simp [Done, hr]
    rw [hD1, hD2]
    have hcnt : ∀ k, countLive (bufs.set i { b with refs := none }) k
        + (if b.refs = some k then 1 else 0) = countLive bufs k := by
      intro k
      have hcount : (bufs.set i { b with refs := none }).countP
            (fun x => x.refs == some k) +
            (if (b.refs == some k) = true then 1 else 0)
          = bufs.countP (fun x => x.refs == some k) +
            (if (({ b with refs := none } : Buffer).refs == some k) = true
              then 1 else 0) :=
        countP_set_add bufs (fun x => x.refs == some k) i b
          { b with refs := none } hib
      have hpb2 : (({ b with refs := none } : Buffer).refs == some k) = false := by
        simp
      rw [hpb2] at hcount
      unfold countLive
      by_cases hbk : b.refs = some k
      · have hpb : (b.refs == some k) = true := by simp [hbk]
        rw [hpb] at hcount
        rw [if_pos hbk]
        simp at hcount
        omega
      · have hpb : (b.refs == some k) = false := by simp [hbk]
        rw [hpb] at hcount
        rw [if_neg hbk]
        simp at hcount
        omega
    refine ⟨?_, ?_, ?_, ?_, ?_⟩
    · intro d hd
      rw [setShard_length]
      exact h1 d hd
    · intro b2 hb2 k hbk
      rw [setShard_length]
      rcases List.mem_or_eq_of_mem_set hb2 with hold | rfl
      · exact h2 b2 hold k hbk
      · cases hbk
    · intro k
      by_cases hkj : j = k
      · subst hkj
        rw [getShard_set_self _ _ _ hj]
        have hcl := h3 j
        have hc := hcnt j
        rw [if_pos hr] at hc
        show (getShard st j).refs - 1
          = (countLive (bufs.set i { b with refs := none }) j : Int)
        omega
      · rw [getShard_set_ne _ _ _ _ hkj]
        have hcl := h3 k
        have hc := hcnt k
        rw [if_neg (by rw [hr]; exact fun hcon => hkj (Option.some.inj hcon))]
          at hc
        omega
    · intro b2 hb2 k hbk
      have hoff : ∀ m, (getShard
          (setShard st j { getShard st j with refs := (getShard st j).refs - 1 })
          m).off = (getShard st m).off := by
        intro m
        by_cases hm : j = m
        · subst hm
          rw [getShard_set_self _ _ _ hj]
        · rw [getShard_set_ne _ _ _ _ hm]
      rw [hoff k]
      rcases List.mem_or_eq_of_mem_set hb2 with hold | rfl
      · exact h4 b2 hold k hbk
      · cases hbk
    · refine pairwise_set_of_trivial bufs { b with refs := none } ?_ ?_ i h5
      · intro a k _ hbk
        cases hbk
      · intro a k hbk
        cases hbk

theorem inv_step (p : Pool) (s : SysState) (op : Op)
    (h : Inv s.pool s.bufs) : Inv (step p s op).pool (step p s op).bufs := by
  cases op with
  | make n =>
    rcases hM : Make p s.pool n with e | r
    · simp only [step, hM]
      exact h
    · rcases r with ⟨b, st2⟩
      simp only [step, hM]
      exact inv_make p s.pool s.bufs n h b st2 hM
  | done i =>
    rcases hib : s.bufs[i]? with _ | b
    · simp only [step, hib]
      exact h
    · simp only [step, hib]
      exact inv_done s.pool s.bufs i b h hib

theorem inv_init : Inv SysState.init.pool SysState.init.bufs := by
  refine ⟨?_, ?_, ?_, ?_, ?_⟩ <;>
    simp [SysState.init, PoolState.init, getShard, countLive]
  rfl

theorem inv_run (p : Pool) (ops : List Op) :
    Inv (run p ops).pool (run p ops).bufs := by
  suffices hgen : ∀ s, Inv s.pool s.bufs →
      Inv (ops.foldl (step p) s).pool (ops.foldl (step p) s).bufs by
    exact hgen SysState.init inv_init
  induction ops with
  | nil => intro s hs; exact hs
  | cons op rest ih =>
    intro s hs
    exact ih (step p s op) (inv_step p s op hs)

/-! ### Basic Make lemmas -/

theorem make_ok_of_nonneg (p : Pool) (st : PoolState) (n : Int) (hn : 0 ≤ n) :
    ∃ b st2, Make p st n = .ok (b, st2) := by
  unfold Make
  rw [if_neg (by omega)]
  by_cases h : n = 0 ∨ p.sz ≤ n
  · rw [if_pos h]; exact ⟨_, _, rfl⟩
  · rw [if_neg h]
    rcases hml : makeLoop p.sz n.toNat p.maxRetries.toNat st [] with ⟨sel, st1, ds⟩
    cases sel
    · exact ⟨_, _, rfl⟩
    · exact ⟨_, _, rfl⟩

/-! ### Claim theorems -/

/-- C1: for every n with 0 < n < shard size, Make returns a Buffer whose
Len is exactly n, and both length and capacity of the exposed region
equal n, so no capacity beyond the request is observable. -/
theorem make_len_exact (p : Pool) (st : PoolState) (n : Int)
    (h0 : 0 < n) (h1 : n < p.sz) :
    ∃ b st2, Make p st n = .ok (b, st2) ∧
      (b.Len : Int) = n ∧ (b.lenB : Int) = n ∧ (b.capB : Int) = n := by
  unfold Make
  rw [if_neg (by omega), if_neg (by omega)]
  rcases hml : makeLoop p.sz n.toNat p.maxRetries.toNat st [] with ⟨sel, st1, ds⟩
  cases sel with
  | none =>
    refine ⟨_, _, rfl, ?_, ?_, ?_⟩ <;> simp [Buffer.Len, claimFrom] <;> omega
  | some id =>
    refine ⟨_, _, rfl, ?_, ?_, ?_⟩ <;> simp [Buffer.Len, claimFrom] <;> omega

/-- Witness for C1 at p = New 16 [], n = 3. -/
theorem make_len_exact_witness :
    ∃ b st2, Make (New 16 []) PoolState.init 3 = .ok (b, st2) ∧
      (b.Len : Int) = 3 ∧ (b.lenB : Int) = 3 ∧ (b.capB : Int) = 3 :=
  make_len_exact (New 16 []) PoolState.init 3 (by decide) (by decide)

/-- C3: Make fails (Go: panics) exactly when n < 0; for every n ≥ 0 it
returns a usable Buffer. -/
theorem make_fails_iff_neg (p : Pool) (st : PoolState) (n : Int) :
    ((∃ e, Make p st n = .error e) ↔ n < 0) ∧
    (0 ≤ n → ∃ b st2, Make p st n = .ok (b, st2)) := by
  refine ⟨⟨?_, ?_⟩, fun hn => make_ok_of_nonneg p st n hn⟩
  · rintro ⟨e, he⟩
    by_contra hn
    push_neg at hn
    rcases make_ok_of_nonneg p st n hn with ⟨b, st2, hb⟩
    rw [hb] at he
    exact absurd he (by simp)
  · intro hn
    refine ⟨"size should be greater than zero", ?_⟩
    unfold Make
    rw [if_pos hn]

/-- Witness for C3 at n = -3 (error) and n = 5 (success). -/
theorem make_fails_iff_neg_witness :
    ((∃ e, Make (New 16 []) PoolState.init (-3) = .error e) ↔ (-3 : Int) < 0) ∧
    ((0 : Int) ≤ 5 → ∃ b st2, Make (New 16 []) PoolState.init 5 = .ok (b, st2)) :=
  ⟨(make_fails_iff_neg (New 16 []) PoolState.init (-3)).1,
   (make_fails_iff_neg (New 16 []) PoolState.init 5).2⟩

/-- C4: for n = 0 or n ≥ shard size, Make returns a standalone
allocation of exactly n bytes with no back-reference, the pool state is
untouched, and Done on such a Buffer is a no-op in every state. -/
theorem make_standalone_spec (p : Pool) (st : PoolState) (n : Int)
    (hn : 0 ≤ n) (h : n = 0 ∨ p.sz ≤ n) :
    Make p st n = .ok (mallocBuffer n.toNat, st) ∧
    ((mallocBuffer n.toNat).Len : Int) = n ∧
    (mallocBuffer n.toNat).refs = none ∧
    ∀ st2, Done (mallocBuffer n.toNat) st2 = (mallocBuffer n.toNat, st2) := by
  refine ⟨?_, ?_, rfl, fun st2 => rfl⟩
  · unfold Make
    rw [if_neg (by omega), if_pos h]
  · simp [mallocBuffer, Buffer.Len]
    omega

/-- Witness for C4 at p = New 10 [], n = 12. -/
theorem make_standalone_spec_witness :
    Make (New 10 []) PoolState.init 12 = .ok (mallocBuffer 12, PoolState.init) ∧
    ((mallocBuffer (12 : Int).toNat).Len : Int) = 12 ∧
    (mallocBuffer (12 : Int).toNat).refs = none ∧
    ∀ st2, Done (mallocBuffer (12 : Int).toNat) st2
      = (mallocBuffer (12 : Int).toNat, st2) :=
  make_standalone_spec (New 10 []) PoolState.init 12 (by decide)
    (Or.inr (by decide))

/-- C7: Done is idempotent: a second (or any further) Done on the same
Buffer value leaves the Buffer and the pool state exactly as after the
first call, so the shard refs is decremented at most once per Buffer. -/
theorem done_idempotent (b : Buffer) (st : PoolState) :
    Done (Done b st).1 (Done b st).2 = Done b st := by
  rcases h : b.refs with _ | i <;> simp [Done, h]

/-- C8: Done only decrements the originating shard's refs (when the
back-reference is set and names an existing shard) and clears the
back-reference; it never changes any shard's offset or stored bytes,
even when refs reaches zero. -/
theorem done_frame (b : Buffer) (st : PoolState) (j : Nat) :
    (getShard (Done b st).2 j).off = (getShard st j).off ∧
    (getShard (Done b st).2 j).data = (getShard st j).data ∧
    (getShard (Done b st).2 j).refs =
      (getShard st j).refs -
        (if b.refs = some j ∧ j < st.shards.length then 1 else 0) ∧
    (Done b st).1.refs = none := by
  rcases h : b.refs with _ | i
  · simp [Done, h]
  · by_cases hij : i = j
    · subst hij
      by_cases hlt : i < st.shards.length
      · simp [Done, h, getShard_set_self _ _ _ hlt, hlt]
      · rw [Done]
        simp only [h]
        rw [setShard_of_le _ _ _ (by omega)]
        simp [hlt]
    · simp [Done, h, getShard_set_ne _ _ _ _ hij, hij]

/-- C10: New performs no validation of its size argument: for every
sz ≤ 0 and every n ≥ 0, Make on the resulting Pool takes the standalone
path, leaving the pool state untouched, so no shard is ever created or
claimed from. -/
theorem new_unvalidated_standalone (sz : Int) (opts : List (Cfg → Cfg))
    (st : PoolState) (n : Int) (hsz : sz ≤ 0) (hn : 0 ≤ n) :
    Make (New sz opts) st n = .ok (mallocBuffer n.toNat, st) := by
  unfold Make
  rw [if_neg (by omega)]
  rw [if_pos (Or.inr (show (New sz opts).sz ≤ n by
    rw [show (New sz opts).sz = sz from rfl]; omega))]

/-- Witness for C10 at sz = -5, n = 7. -/
theorem new_unvalidated_standalone_witness :
    Make (New (-5) [WithMaxRetries 3]) PoolState.init 7
      = .ok (mallocBuffer 7, PoolState.init) :=
  new_unvalidated_standalone (-5) [WithMaxRetries 3] PoolState.init 7
    (by decide) (by decide)

/-- The claim switch succeeds exactly when there is strict room left or
the shard is fully returned. -/
theorem claimCheck_isSome (sh : Shard) (n : Nat) :
    (claimCheck sh n).isSome ↔ (sh.off + n < sh.data.length ∨ sh.refs = 0) := by
  unfold claimCheck
  split_ifs with h1 h2
  · simp [h1]
  · simp [h1, h2]
  · simp [h1, h2]

/-- When there is no strict room but the shard is fully returned, the
claim switch selects the shard with its offset reset to 0. -/
theorem claimCheck_reset (sh : Shard) (n : Nat)
    (h1 : ¬ sh.off + n < sh.data.length) (h2 : sh.refs = 0) :
    claimCheck sh n = some { sh with off := 0 } := by
  unfold claimCheck
  rw [if_neg h1, if_pos h2]

/-- The retry loop leaves every shard it does not select unchanged. -/
theorem makeLoop_frame (sz : Int) (n : Nat) :
    ∀ (fuel : Nat) (st : PoolState) (ds : List Nat) (j : Nat),
      j < st.shards.length →
      (makeLoop sz n fuel st ds).1 ≠ some j →
      getShard (makeLoop sz n fuel st ds).2.1 j = getShard st j := by
  intro fuel
  induction fuel with
  | zero => intro st ds j hj hne; rfl
  | succ f ih =>
    intro st ds j hj hne
    rcases hcc : claimCheck (getShard (poolGet sz st).2 (poolGet sz st).1) n
      with _ | sh
    · rw [makeLoop_succ_none sz n f st ds hcc] at hne ⊢
      have hj2 : j < (poolGet sz st).2.shards.length := by
        rcases hav : st.avail with _ | ⟨id, rest⟩ <;> simp [poolGet, hav] <;> omega
      rw [ih (poolGet sz st).2 (ds ++ [(poolGet sz st).1]) j hj2 hne]
      rcases hav : st.avail with _ | ⟨id, rest⟩
      · simp only [poolGet, hav]
        exact getD_append_left st.shards [newShard sz] j hj
      · simp [poolGet, hav, getShard]
    · rw [makeLoop_succ_some sz n f st ds sh hcc] at hne ⊢
      have hne2 : (poolGet sz st).1 ≠ j := fun he => hne (by rw [he])
      rw [getShard_set_ne _ _ _ _ hne2]
      rcases hav : st.avail with _ | ⟨id, rest⟩
      · simp only [poolGet, hav]
        exact getD_append_left st.shards [newShard sz] j hj
      · simp [poolGet, hav, getShard]

/-- Both boundary requests: shard size minus one is shard-backed, shard
size itself is standalone. -/
theorem make_boundary (p : Pool) (st : PoolState) (h2 : 2 ≤ p.sz) :
    (∃ b st2, Make p st (p.sz - 1) = .ok (b, st2) ∧ b.refs.isSome) ∧
    (∃ b, Make p st p.sz = .ok (b, st) ∧ b.refs = none) := by
  constructor
  · unfold Make
    rw [if_neg (by omega), if_neg (by omega)]
    rcases hml : makeLoop p.sz (p.sz - 1).toNat p.maxRetries.toNat st []
      with ⟨sel, st1, ds⟩
    cases sel
    · exact ⟨_, _, rfl, rfl⟩
    · exact ⟨_, _, rfl, rfl⟩
  · unfold Make
    rw [if_neg (by omega), if_pos (Or.inr le_rfl)]
    exact ⟨_, rfl, rfl⟩

/-- C5: claim eligibility is the strict inequality offset + n < capacity
or live_count = 0 (the latter resetting the offset to 0); a failed claim
leaves the inspected shard untouched; Make(shard_size - 1) is
shard-backed while Make(shard_size) is standalone. -/
theorem claim_strict_boundary :
    (∀ sh n, (claimCheck sh n).isSome ↔
        (sh.off + n < sh.data.length ∨ sh.refs = 0)) ∧
    (∀ sh n, ¬ sh.off + n < sh.data.length → sh.refs = 0 →
        claimCheck sh n = some { sh with off := 0 }) ∧
    (∀ sz n fuel st ds j, j < st.shards.length →
        (makeLoop sz n fuel st ds).1 ≠ some j →
        getShard (makeLoop sz n fuel st ds).2.1 j = getShard st j) ∧
    (∀ p st, 2 ≤ p.sz →
        (∃ b st2, Make p st (p.sz - 1) = .ok (b, st2) ∧ b.refs.isSome) ∧
        (∃ b, Make p st p.sz = .ok (b, st) ∧ b.refs = none)) :=
  ⟨claimCheck_isSome, claimCheck_reset,
   fun sz n => makeLoop_frame sz n, make_boundary⟩

/-- Witness for C5: a shard with refs 1, off 2, capacity 4 accepts a
1-byte claim; on a pool of shard size 4 the boundary requests behave as
stated. -/
theorem claim_strict_boundary_witness :
    (claimCheck ⟨[0, 0, 0, 0], 1, 2⟩ 1).isSome ∧
    (∃ b st2, Make ⟨4, 1⟩ PoolState.init ((4 : Int) - 1) = .ok (b, st2) ∧
        b.refs.isSome) ∧
    (∃ b, Make ⟨4, 1⟩ PoolState.init 4 = .ok (b, PoolState.init) ∧
        b.refs = none) :=
  ⟨(claim_strict_boundary.1 ⟨[0, 0, 0, 0], 1, 2⟩ 1).mpr (Or.inl (by decide)),
   (claim_strict_boundary.2.2.2 ⟨4, 1⟩ PoolState.init (by decide)).1,
   (claim_strict_boundary.2.2.2 ⟨4, 1⟩ PoolState.init (by decide)).2⟩

/-- The retry loop never shrinks the deferred-Put list. -/
theorem makeLoop_ds_mono (sz : Int) (n : Nat) :
    ∀ (fuel : Nat) (st : PoolState) (ds : List Nat),
      ds.length ≤ (makeLoop sz n fuel st ds).2.2.length := by
  intro fuel
  induction fuel with
  | zero => intro st ds; exact le_rfl
  | succ f ih =>
    intro st ds
    rcases hcc : claimCheck (getShard (poolGet sz st).2 (poolGet sz st).1) n
      with _ | sh
    · rw [makeLoop_succ_none sz n f st ds hcc]
      have := ih (poolGet sz st).2 (ds ++ [(poolGet sz st).1])
      simp at this
      omega
    · rw [makeLoop_succ_some sz n f st ds sh hcc]
      simp

/-- With positive fuel the retry loop performs at least one Get. -/
theorem makeLoop_ds_succ (sz : Int) (n : Nat) (f : Nat) (st : PoolState)
    (ds : List Nat) :
    ds.length + 1 ≤ (makeLoop sz n (f + 1) st ds).2.2.length := by
  rcases hcc : claimCheck (getShard (poolGet sz st).2 (poolGet sz st).1) n
    with _ | sh
  · rw [makeLoop_succ_none sz n f st ds hcc]
    have := makeLoop_ds_mono sz n f (poolGet sz st).2 (ds ++ [(poolGet sz st).1])
    simp at this
    omega
  · rw [makeLoop_succ_some sz n f st ds sh hcc]
    simp

/-- C6 counterexample: with max_retries = 0 and a reusable shard
available, Make performs zero Get attempts on the reusable collection
and creates a brand-new shard anyway — refuting the claimed minimum of
one attempt for every configured value. -/
theorem retry_zero_attempts_cex :
    makeGetCount (New 10 [WithMaxRetries 0]) ⟨[newShard 10], [0]⟩ 5 = 0 ∧
    ∃ b st2,
      Make (New 10 [WithMaxRetries 0]) ⟨[newShard 10], [0]⟩ 5 = .ok (b, st2) ∧
      st2.shards.length = 2 ∧ b.refs = some 1 := by
  refine ⟨rfl, _, _, rfl, rfl, rfl⟩

/-- C6 amended: Make performs at least one Get attempt on the reusable
collection whenever max_retries ≥ 1 (the default is 1); for
max_retries ≤ 0 it performs zero attempts and immediately creates a
fresh shard. -/
theorem retry_min_attempts_amended (p : Pool) (st : PoolState) (n : Int)
    (h0 : 0 < n) (h1 : n < p.sz) :
    (1 ≤ p.maxRetries → 1 ≤ makeGetCount p st n) ∧
    (p.maxRetries ≤ 0 → makeGetCount p st n = 0) := by
  constructor
  · intro hr
    unfold makeGetCount
    rw [if_neg (by omega), if_neg (by omega)]
    obtain ⟨f, hf⟩ : ∃ f, p.maxRetries.toNat = f + 1 :=
      ⟨p.maxRetries.toNat - 1, by omega⟩
    rw [hf]
    have := makeLoop_ds_succ p.sz n.toNat f st []
    simpa using this
  · intro hr
    unfold makeGetCount
    rw [if_neg (by omega), if_neg (by omega)]
    have hz : p.maxRetries.toNat = 0 := by omega
    rw [hz]
    rfl

/-- Witness for C6 amended at the default configuration. -/
theorem retry_min_attempts_amended_witness :
    ((1 : Int) ≤ (New 10 []).maxRetries →
      1 ≤ makeGetCount (New 10 []) PoolState.init 3) ∧
    ((New 10 []).maxRetries ≤ 0 →
      makeGetCount (New 10 []) PoolState.init 3 = 0) :=
  retry_min_attempts_amended (New 10 []) PoolState.init 3 (by decide) (by decide)

/-- C2: in every reachable state of any sequence of Make and Done
operations on one Pool, two distinct live Buffers backed by the same
shard occupy disjoint byte ranges of that shard's storage. -/
theorem make_done_no_alias (p : Pool) (ops : List Op) (j k : Nat)
    (bj bk : Buffer) (i : Nat) (hjk : j ≠ k)
    (hj : (run p ops).bufs[j]? = some bj)
    (hk : (run p ops).bufs[k]? = some bk)
    (hbj : bj.refs = some i) (hbk : bk.refs = some i) :
    noOverlap bj bk := by
  have h5 := (inv_run p ops).2.2.2.2
  rw [List.pairwise_iff_getElem] at h5
  have hjlt : j < (run p ops).bufs.length := by
    by_contra hc
    push_neg at hc
    rw [List.getElem?_eq_none hc] at hj
    cases hj
  have hklt : k < (run p ops).bufs.length := by
    by_contra hc
    push_neg at hc
    rw [List.getElem?_eq_none hc] at hk
    cases hk
  have hj2 : (run p ops).bufs[j] = bj := by
    rw [List.getElem?_eq_getElem hjlt] at hj
    exact Option.some.inj hj
  have hk2 : (run p ops).bufs[k] = bk := by
    rw [List.getElem?_eq_getElem hklt] at hk
    exact Option.some.inj hk
  rcases Nat.lt_or_ge j k with hlt | hge
  · have hrel := h5 j k hjlt hklt hlt
    rw [hj2, hk2] at hrel
    exact hrel i hbj hbk
  · have hkj : k < j := by omega
    have hrel := h5 k j hklt hjlt hkj
    rw [hj2, hk2] at hrel
    have hno := hrel i hbk hbj
    unfold noOverlap at hno ⊢
    tauto

/-- Witness for C2: two live 3-byte Buffers from one shard of a pool of
shard size 10 occupy the disjoint ranges starting at 0 and 3. -/
theorem make_done_no_alias_witness :
    noOverlap ⟨0, 3, 3, some 0⟩ ⟨3, 3, 3, some 0⟩ :=
  make_done_no_alias ⟨10, 1⟩ [.make 3, .make 3] 0 1 ⟨0, 3, 3, some 0⟩
    ⟨3, 3, 3, some 0⟩ 0 (by decide) (by decide) (by decide) rfl rfl

set_option maxRecDepth 100000 in
/-- C9: on Pool(shard_size = 100) with default options, ten sequential
Make(20)/Done() iterations all succeed with Len = 20 and create at most
two shards in total. -/
theorem ten_make_twenty_scenario :
    (run (New 100 []) opsTenTwenty).pool.shards.length ≤ 2 ∧
    (run (New 100 []) opsTenTwenty).bufs.length = 10 ∧
    ∀ b ∈ (run (New 100 []) opsTenTwenty).bufs, b.Len = 20 := by
  decide

set_option maxRecDepth 100000 in
/-- Witness for C9: the first Buffer of the trace is a member of the
final buffer list and has Len 20. -/
theorem ten_make_twenty_scenario_witness :
    (⟨0, 20, 20, none⟩ : Buffer).Len = 20 :=
  ten_make_twenty_scenario.2.2 ⟨0, 20, 20, none⟩ (by decide)

end Bufpool
